import Mathlib

/-!
Shallow embedding of the StockEarningAnalyzer event-window analytics engine.

Dates are modelled as integers (one integer per calendar day); prices and
volumes as rationals.  A pandas NaN cell is modelled as `none`.  The
definitions below mirror, function by function, the Python sources
`src/api/earnings_data.py`, `src/api/data_fetcher.py` and
`src/logic/analyzer.py`.
-/

/- ## Calendar resolver (`EarningsData`, src/api/earnings_data.py) -/

/-- Embedding of `EarningsData._find_nearest_trading_day_index`:
index of the target date or of the next trading day; 0 when the target
precedes all trading days; the last index when it follows all of them. -/
def findNearestTradingDayIndex (targetDate : ℤ) : List ℤ → Option ℕ
  | [] => none
  | d :: ds =>
    if targetDate < d then some 0
    else if ds.getLastD d < targetDate then some ((d :: ds).length - 1)
    else
      match (d :: ds).findIdx? (fun td => decide (targetDate ≤ td)) with
      | some i => some i
      | none => some ((d :: ds).length - 1)

/-- Embedding of `EarningsData.get_trading_day_offset`: sorts the calendar,
forward-snaps the earnings date to a position, adds the offset, and clamps
the resulting index to the available range. -/
def getTradingDayOffset (earningsDate offset : ℤ) (tradingDays : List ℤ) : Option ℤ :=
  match tradingDays.insertionSort (· ≤ ·) with
  | [] => none
  | d :: ds =>
    match findNearestTradingDayIndex earningsDate (d :: ds) with
    | none => none
    | some idx =>
      let target : ℤ := (idx : ℤ) + offset
      if target < 0 then some d
      else if ((d :: ds).length : ℤ) ≤ target then some (ds.getLastD d)
      else some ((d :: ds).getD target.toNat 0)

/- ## Series cache merge (`DataFetcher._merge_data`, src/api/data_fetcher.py) -/

/-- One raw OHLCV row as fetched and cached by `DataFetcher`. -/
structure Row where
  date : ℤ
  openPrice : ℚ
  high : ℚ
  low : ℚ
  close : ℚ
  volume : ℚ
deriving DecidableEq, Repr

/-- Embedding of `drop_duplicates(subset=['date'], keep='last')`: a row is
kept exactly when no later row carries the same date. -/
def dropDupKeepLast : List Row → List Row
  | [] => []
  | r :: rs =>
    if rs.any (fun x => decide (x.date = r.date)) then dropDupKeepLast rs
    else r :: dropDupKeepLast rs

/-- Date order on rows, used by `sort_values('date')`. -/
def rowLe (a b : Row) : Prop := a.date ≤ b.date

instance : DecidableRel rowLe := fun a b => inferInstanceAs (Decidable (a.date ≤ b.date))

instance : IsTotal Row rowLe := ⟨fun a b => Int.le_total a.date b.date⟩

instance : IsTrans Row rowLe := ⟨fun _ _ _ h1 h2 => Int.le_trans h1 h2⟩

/-- Embedding of `sort_values('date')` on a date-unique frame (with unique
dates every correct sort produces the same list, so a concrete sort works). -/
def sortByDate (l : List Row) : List Row := l.insertionSort rowLe

/-- Embedding of `DataFetcher._merge_data`: concatenate, drop duplicate
dates keeping the newly retrieved row, and re-sort ascending by date. -/
def mergeData (existing newRows : List Row) : List Row :=
  if existing = [] then newRows
  else if newRows = [] then existing
  else sortByDate (dropDupKeepLast (existing ++ newRows))

/- ## Rolling percentile rank (`DataFetcher._calculate_percentile`) -/

/-- The valid (non-NaN) samples of the trailing window of up to `window`
entries ending at position `i`, i.e. `series.iloc[start:i+1].dropna()` with
`start = max 0 (i - window + 1)`. -/
def trailingValid (series : List (Option ℚ)) (window i : ℕ) : List ℚ :=
  ((series.drop (i + 1 - window)).take (i + 1 - (i + 1 - window))).filterMap id

/-- Embedding of `DataFetcher._calculate_percentile` at one position:
`none` when the current sample is NaN or fewer than 2 valid samples lie in
the trailing window; otherwise the min-max rescaled rank, or 50 when all
window values coincide. -/
def percentileAt (series : List (Option ℚ)) (window i : ℕ) : Option ℚ :=
  match series.get? i with
  | some (some v) =>
    match trailingValid series window i with
    | w0 :: w1 :: ws =>
      let mn := (w1 :: ws).foldl min w0
      let mx := (w1 :: ws).foldl max w0
      if 0 < mx - mn then some ((v - mn) / (mx - mn) * 100) else some 50
    | _ => none
  | _ => none

/- ## Event analyzer (`Analyzer`, src/logic/analyzer.py) -/

/-- One bar of the indicator-enriched series the analyzer consumes: the
OHLCV columns it reads plus the pre-computed indicator columns
(`Volume_SMA_20`, `Volume_SMA_50`, `RSI_14`, `RSI_Percentile`) and the two
RVOL columns the analyzer itself fills in.  `none` models a NaN cell. -/
structure Bar where
  date : ℤ
  low : ℚ
  high : ℚ
  close : ℚ
  volume : ℚ
  volSMA20 : Option ℚ
  volSMA50 : Option ℚ
  rsi : Option ℚ
  rsiPct : Option ℚ
  rvol20 : Option ℚ
  rvol50 : Option ℚ
deriving DecidableEq, Repr

/-- The resolved window set handed to the analyzer
(`EarningsData.get_analysis_windows` output, as the analyzer reads it). -/
structure Windows where
  earningsDate : ℤ
  obsStart : Option ℤ
  accStart : Option ℤ
  accEnd : Option ℤ
  tMinus1 : Option ℤ
  tPlus : ℕ → Option ℤ

/-- One reported accumulation day (the dict built in
`Analyzer._find_accumulation_zone`). -/
structure AccDay where
  date : ℤ
  low : ℚ
  high : ℚ
  close : ℚ
  typical_price : ℚ
  rvol20 : Option ℚ
  rvol50 : Option ℚ
  rsi : Option ℚ
  rsiPct : Option ℚ
  days_before_earnings : ℕ
deriving DecidableEq, Repr

/-- The reference-high pair (`{"price": ..., "date": ...}`). -/
structure RefHigh where
  price : Option ℚ
  date : Option ℤ
deriving DecidableEq, Repr

/-- The four exit-price returns for one forward offset. -/
structure DayProfits where
  close : Option ℚ
  low : Option ℚ
  high : Option ℚ
  typical : Option ℚ
deriving DecidableEq, Repr

/-- The returns bundle of `Analyzer._calculate_returns`; `profits.get? k`
holds the T+k entry for k = 0..6. -/
structure Returns where
  run_up : Option ℚ
  event : Option ℚ
  profits : List DayProfits
deriving DecidableEq, Repr

/-- The full analysis result of `Analyzer.analyze_earnings_event`. -/
structure AnalysisResult where
  accumulation_price : Option ℚ
  accumulation_days : List AccDay
  reference_high : RefHigh
  max_drawdown_pct : Option ℚ
  returns : Returns
deriving DecidableEq, Repr

/-- Typical price `(low + high + close) / 3`. -/
def typicalPrice (b : Bar) : ℚ := (b.low + b.high + b.close) / 3

/-- Embedding of `Analyzer._calculate_trading_days_between`: the number of
bars with `startD <= date < endD` (half-open on the right). -/
def tradingDaysBetween (startD endD : ℤ) (df : List Bar) : ℕ :=
  (df.filter (fun b => decide (startD ≤ b.date) && decide (b.date < endD))).length

/-- Modelled from the spec's words "the count of trading days strictly
between that day and the anchor date (excluding both ...)", for comparison
with `tradingDaysBetween`. -/
def specTradingDaysStrictlyBetween (startD endD : ℤ) (df : List Bar) : ℕ :=
  (df.filter (fun b => decide (startD < b.date) && decide (b.date < endD))).length

/-- The accumulation-window slice `acc_start <= date <= acc_end`. -/
def accWindow (df : List Bar) (s e : ℤ) : List Bar :=
  df.filter (fun b => decide (s ≤ b.date) && decide (b.date ≤ e))

/-- The accumulation-day snapshot built for a bar in
`Analyzer._find_accumulation_zone`. -/
def mkAccDay (df : List Bar) (earningsDate : ℤ) (b : Bar) : AccDay :=
  { date := b.date
    low := b.low
    high := b.high
    close := b.close
    typical_price := typicalPrice b
    rvol20 := b.rvol20
    rvol50 := b.rvol50
    rsi := b.rsi
    rsiPct := b.rsiPct
    days_before_earnings := tradingDaysBetween b.date earningsDate df }

/-- Embedding of `Analyzer._find_accumulation_zone`: minimum typical price
over the accumulation window and the snapshots of all bars attaining it. -/
def findAccumulationZone (df : List Bar) (w : Windows) : Option ℚ × List AccDay :=
  match w.accStart, w.accEnd with
  | some s, some e =>
    match accWindow df s e with
    | [] => (none, [])
    | b :: bs =>
      let m := bs.foldl (fun acc x => min acc (typicalPrice x)) (typicalPrice b)
      (some m,
        ((b :: bs).filter (fun x => decide (typicalPrice x = m))).map
          (mkAccDay df w.earningsDate))
  | _, _ => (none, [])

/-- The reference-high slice `obs_start <= date < accumulation_date`. -/
def refWindow (df : List Bar) (obsStartDate accDate : ℤ) : List Bar :=
  df.filter (fun b => decide (obsStartDate ≤ b.date) && decide (b.date < accDate))

/-- Embedding of `Analyzer._calculate_reference_high`: the maximum high
over the reference window together with the date of its first occurrence
(`idxmax` returns the first maximising row). -/
def calculateReferenceHigh (df : List Bar) (w : Windows) (accDate : ℤ) : RefHigh :=
  match w.obsStart with
  | none => ⟨none, none⟩
  | some s =>
    match refWindow df s accDate with
    | [] => ⟨none, none⟩
    | b :: bs =>
      let mx := bs.foldl (fun m x => max m x.high) b.high
      match (b :: bs).find? (fun x => decide (x.high = mx)) with
      | some r => ⟨some r.high, some r.date⟩
      | none => ⟨none, none⟩

/-- Embedding of `Analyzer._calculate_drawdown`. -/
def calculateDrawdown (referenceHigh accPrice : Option ℚ) : Option ℚ :=
  match referenceHigh, accPrice with
  | some r, some a => if r = 0 then none else some ((a - r) / r * 100)
  | _, _ => none

/-- Embedding of `Analyzer._get_close_price`: the close of the first bar
matching the target date, `none` when the date is `None` or unmatched. -/
def getClosePrice (df : List Bar) (targetDate : Option ℤ) : Option ℚ :=
  match targetDate with
  | none => none
  | some t =>
    match df.find? (fun b => decide (b.date = t)) with
    | some b => some b.close
    | none => none

/-- Embedding of `Analyzer._get_low_price`. -/
def getLowPrice (df : List Bar) (targetDate : Option ℤ) : Option ℚ :=
  match targetDate with
  | none => none
  | some t =>
    match df.find? (fun b => decide (b.date = t)) with
    | some b => some b.low
    | none => none

/-- Embedding of `Analyzer._get_high_price`. -/
def getHighPrice (df : List Bar) (targetDate : Option ℤ) : Option ℚ :=
  match targetDate with
  | none => none
  | some t =>
    match df.find? (fun b => decide (b.date = t)) with
    | some b => some b.high
    | none => none

/-- A percentage return guarded by Python float truthiness of the exit
price (`if close_price:` treats 0.0 like a missing price). -/
def profitOf (p : Option ℚ) (a : ℚ) : Option ℚ :=
  match p with
  | some x => if x = 0 then none else some ((x - a) / a * 100)
  | none => none

/-- All-`None` profits row. -/
def emptyDayProfits : DayProfits := ⟨none, none, none, none⟩

/-- The T+`day` entry of `Analyzer._calculate_returns`: both the resolved
window date and the accumulation price must be truthy, each price method is
independently `None`-guarded, and the typical price needs all three. -/
def profitFor (df : List Bar) (w : Windows) (a : ℚ) (day : ℕ) : DayProfits :=
  match w.tPlus day with
  | none => emptyDayProfits
  | some _ =>
    if a = 0 then emptyDayProfits
    else
      let c := getClosePrice df (w.tPlus day)
      let l := getLowPrice df (w.tPlus day)
      let h := getHighPrice df (w.tPlus day)
      let typ : Option ℚ :=
        match l, h, c with
        | some lv, some hv, some cv =>
          if lv = 0 ∨ hv = 0 ∨ cv = 0 then none else some ((lv + hv + cv) / 3)
        | _, _, _ => none
      { close := profitOf c a
        low := profitOf l a
        high := profitOf h a
        typical := profitOf typ a }

/-- Embedding of `Analyzer._calculate_returns` for a concrete accumulation
price `a` (the Python caller always passes a float here). -/
def calculateReturns (df : List Bar) (w : Windows) (a : ℚ) : Returns :=
  let tm1 := getClosePrice df w.tMinus1
  let t2 := getClosePrice df (w.tPlus 2)
  { run_up :=
      match tm1 with
      | some t => if a = 0 ∨ t = 0 then none else some ((t - a) / a * 100)
      | none => none
    event :=
      match tm1, t2 with
      | some t, some u => if t = 0 ∨ u = 0 then none else some ((u - t) / t * 100)
      | _, _ => none
    profits := (List.range 7).map (profitFor df w a) }

/-- Unfrozen tactical relative volume `volume / Volume_SMA_20`. -/
def unfrozenRvol20 (b : Bar) : Option ℚ := b.volSMA20.map (fun s => b.volume / s)

/-- Unfrozen strategic relative volume `volume / Volume_SMA_50`. -/
def unfrozenRvol50 (b : Bar) : Option ℚ := b.volSMA50.map (fun s => b.volume / s)

/-- Overwrite the two RVOL columns of a bar. -/
def setRvols (b : Bar) (r20 r50 : Option ℚ) : Bar :=
  { b with rvol20 := r20, rvol50 := r50 }

/-- The T-11 freeze position of `Analyzer._calculate_indicators`: the
position of the first bar dated on or after the earnings date, minus 11;
`none` when no such bar exists or fewer than 11 bars precede it. -/
def t11Index (df : List Bar) (earningsDate : ℤ) : Option ℕ :=
  match df.findIdx? (fun b => decide (earningsDate ≤ b.date)) with
  | none => none
  | some idx => if 11 ≤ idx then some (idx - 11) else none

/-- Per-row frozen ratio: overwrite with `volume / baseline` only when the
baseline is defined and positive, otherwise keep the fallback value. -/
def frozenRatio (vol : ℚ) (baseline : Option ℚ) (fallback : Option ℚ) : Option ℚ :=
  match baseline with
  | some s => if 0 < s then some (vol / s) else fallback
  | none => fallback

/-- Position-aware map, used to mirror the index loop
`for idx in range(t_minus_11_idx + 1, len(df))`. -/
def mapWithIdx (f : ℕ → Bar → Bar) : ℕ → List Bar → List Bar
  | _, [] => []
  | i, b :: bs => f i b :: mapWithIdx f (i + 1) bs

/-- Embedding of `Analyzer._calculate_indicators` (the RVOL part; the RSI
columns are pre-computed fields copied through unchanged): rows strictly
after the T-11 position get the frozen-baseline ratio, all others keep the
rolling-SMA ratio; with no T-11 position every row keeps the rolling
ratio. -/
def calculateIndicators (df : List Bar) (w : Windows) : List Bar :=
  match t11Index df w.earningsDate with
  | some t =>
    match df.get? t with
    | some base =>
      mapWithIdx
        (fun i b =>
          if t < i then
            setRvols b (frozenRatio b.volume base.volSMA20 (unfrozenRvol20 b))
              (frozenRatio b.volume base.volSMA50 (unfrozenRvol50 b))
          else setRvols b (unfrozenRvol20 b) (unfrozenRvol50 b))
        0 df
    | none => df.map (fun b => setRvols b (unfrozenRvol20 b) (unfrozenRvol50 b))
  | none => df.map (fun b => setRvols b (unfrozenRvol20 b) (unfrozenRvol50 b))

/-- The defined empty result of `Analyzer._empty_result`. -/
def emptyResult : AnalysisResult :=
  { accumulation_price := none
    accumulation_days := []
    reference_high := ⟨none, none⟩
    max_drawdown_pct := none
    returns := { run_up := none, event := none, profits := List.replicate 7 emptyDayProfits } }

/-- The result record assembled on the analyzer's success path. -/
def buildResult (df2 : List Bar) (w : Windows) (p : ℚ) (d0 : AccDay)
    (ds : List AccDay) : AnalysisResult :=
  let rh := calculateReferenceHigh df2 w d0.date
  { accumulation_price := some p
    accumulation_days := d0 :: ds
    reference_high := rh
    max_drawdown_pct := calculateDrawdown rh.price (some p)
    returns := calculateReturns df2 w p }

/-- Embedding of `Analyzer.analyze_earnings_event`: enrich with RVOL,
locate the accumulation zone, then fall back to the empty result when no
accumulation price exists.  (The `(some _, [])` case cannot occur: the
minimum is always attained.) -/
def analyzeEarningsEvent (df : List Bar) (w : Windows) : AnalysisResult :=
  match findAccumulationZone (calculateIndicators df w) w with
  | (none, _) => emptyResult
  | (some _, []) => emptyResult
  | (some p, d0 :: ds) => buildResult (calculateIndicators df w) w p d0 ds

/- ## Helper lemmas: calendar resolver -/

lemma findNearestTradingDayIndex_isSome (t d : ℤ) (ds : List ℤ) :
    ∃ p, findNearestTradingDayIndex t (d :: ds) = some p := by
  simp only [findNearestTradingDayIndex]
  split
  · exact ⟨0, rfl⟩
  · split
    · exact ⟨(d :: ds).length - 1, rfl⟩
    · cases h : (d :: ds).findIdx? (fun td => decide (t ≤ td)) with
      | none => exact ⟨(d :: ds).length - 1, rfl⟩
      | some i => exact ⟨i, rfl⟩

lemma getLastD_eq_getD (d : ℤ) (ds : List ℤ) :
    ds.getLastD d = (d :: ds).getD ds.length 0 := by
  induction ds generalizing d with
  | nil => rfl
  | cons e es ih =>
    rw [List.getLastD_cons, List.length_cons, List.getD_cons_succ]
    exact ih e

/-- Core formula for `getTradingDayOffset` on a sorted, non-empty calendar:
the result is the entry at the boundary-clamped index `position + offset`. -/
lemma getTradingDayOffset_sorted_eq (d : ℤ) (ds : List ℤ) (earningsDate offset : ℤ)
    (hs : (d :: ds).Sorted (· ≤ ·)) :
    ∃ pos, findNearestTradingDayIndex earningsDate (d :: ds) = some pos ∧
      getTradingDayOffset earningsDate offset (d :: ds) =
        some ((d :: ds).getD
          (Int.toNat (max 0 (min ((pos : ℤ) + offset) (ds.length : ℤ)))) 0) := by
  obtain ⟨pos, hpos⟩ := findNearestTradingDayIndex_isSome earningsDate d ds
  refine ⟨pos, hpos, ?_⟩
  unfold getTradingDayOffset
  rw [hs.insertionSort_eq]
  simp only [hpos]
  split
  · next hlt =>
    have hk : Int.toNat (max 0 (min ((pos : ℤ) + offset) (ds.length : ℤ))) = 0 := by omega
    rw [hk]
    rfl
  · split
    · next hge hle =>
      have hk : Int.toNat (max 0 (min ((pos : ℤ) + offset) (ds.length : ℤ))) = ds.length := by
        simp only [List.length_cons] at hle
        omega
      rw [hk, getLastD_eq_getD]
    · next hge hgt =>
      have hk : Int.toNat (max 0 (min ((pos : ℤ) + offset) (ds.length : ℤ))) =
          ((pos : ℤ) + offset).toNat := by
        simp only [List.length_cons] at hgt
        omega
      rw [hk]

lemma getTradingDayOffset_insertionSort (e o : ℤ) (l : List ℤ) :
    getTradingDayOffset e o (l.insertionSort (· ≤ ·)) = getTradingDayOffset e o l := by
  unfold getTradingDayOffset
  rw [(List.sorted_insertionSort (· ≤ ·) l).insertionSort_eq]

lemma getD_mono_of_sorted {l : List ℤ} (h : l.Sorted (· ≤ ·)) {i j : ℕ} (hij : i ≤ j)
    (hj : j < l.length) : l.getD i 0 ≤ l.getD j 0 := by
  have hi : i < l.length := lt_of_le_of_lt hij hj
  rw [List.getD_eq_getElem l 0 hi, List.getD_eq_getElem l 0 hj]
  exact h.rel_get_of_le (Fin.mk_le_mk.mpr hij)

lemma getD_mem_of_lt {l : List ℤ} {i : ℕ} (h : i < l.length) : l.getD i 0 ∈ l := by
  rw [List.getD_eq_getElem l 0 h]
  exact List.getElem_mem h

/-- C2: on a non-empty sorted calendar the resolver returns the trading day
at index `position + offset` (`position` the forward-snapped anchor
position), clamped to the index range `[0, len-1]`; in particular an offset
resolving beyond the last trading day yields the last trading day. -/
theorem trading_day_offset_clamped (d : ℤ) (ds : List ℤ) (earningsDate offset : ℤ)
    (hs : (d :: ds).Sorted (· ≤ ·)) :
    ∃ pos, findNearestTradingDayIndex earningsDate (d :: ds) = some pos ∧
      getTradingDayOffset earningsDate offset (d :: ds) =
        some ((d :: ds).getD
          (Int.toNat (max 0 (min ((pos : ℤ) + offset) (ds.length : ℤ)))) 0) ∧
      (((d :: ds).length : ℤ) ≤ (pos : ℤ) + offset →
        getTradingDayOffset earningsDate offset (d :: ds) = some (ds.getLastD d)) := by
  obtain ⟨pos, hpos, heq⟩ := getTradingDayOffset_sorted_eq d ds earningsDate offset hs
  refine ⟨pos, hpos, heq, fun hbig => ?_⟩
  rw [heq, getLastD_eq_getD]
  congr 1
  simp only [List.length_cons] at hbig
  congr 1
  omega

/-- Witness for C2 at a concrete calendar: anchor 2 snaps to position 1 in
`[1, 2, 3]` and offset 5 clamps to the last trading day. -/
theorem trading_day_offset_clamped_witness :
    ∃ pos, findNearestTradingDayIndex 2 [1, 2, 3] = some pos ∧
      getTradingDayOffset 2 5 [1, 2, 3] =
        some ([1, 2, 3].getD
          (Int.toNat (max 0 (min ((pos : ℤ) + 5) ((([2, 3] : List ℤ).length : ℕ) : ℤ)))) 0) ∧
      ((([1, 2, 3] : List ℤ).length : ℤ) ≤ (pos : ℤ) + 5 →
        getTradingDayOffset 2 5 [1, 2, 3] = some ([2, 3].getLastD 1)) :=
  trading_day_offset_clamped 1 [2, 3] 2 5 (by decide)

/-- C8: for any non-empty calendar, fixed anchor and offset, the resolved
date at offset `k+1` is never earlier than the one at offset `k`. -/
theorem trading_day_offset_monotone (tradingDays : List ℤ) (earningsDate offset : ℤ)
    (hne : tradingDays ≠ []) :
    ∃ a b, getTradingDayOffset earningsDate offset tradingDays = some a ∧
      getTradingDayOffset earningsDate (offset + 1) tradingDays = some b ∧ a ≤ b := by
  have hperm := List.perm_insertionSort (· ≤ ·) tradingDays
  have hsorted := List.sorted_insertionSort (· ≤ ·) tradingDays
  have hsne : tradingDays.insertionSort (· ≤ ·) ≠ [] := by
    intro h
    apply hne
    have hlen := hperm.length_eq
    rw [h] at hlen
    exact List.length_eq_zero.mp hlen.symm
  obtain ⟨d, ds, hcons⟩ : ∃ d ds, tradingDays.insertionSort (· ≤ ·) = d :: ds := by
    cases h : tradingDays.insertionSort (· ≤ ·) with
    | nil => exact absurd h hsne
    | cons d ds => exact ⟨d, ds, rfl⟩
  rw [hcons] at hsorted
  rw [← getTradingDayOffset_insertionSort earningsDate offset tradingDays,
    ← getTradingDayOffset_insertionSort earningsDate (offset + 1) tradingDays, hcons]
  obtain ⟨pos, hpos, heq⟩ := getTradingDayOffset_sorted_eq d ds earningsDate offset hsorted
  obtain ⟨pos2, hpos2, heq2⟩ :=
    getTradingDayOffset_sorted_eq d ds earningsDate (offset + 1) hsorted
  have hpp : pos2 = pos := by
    have := hpos.symm.trans hpos2
    exact (Option.some.injEq _ _ ▸ this).symm
  subst hpp
  refine ⟨_, _, heq, heq2, ?_⟩
  apply getD_mono_of_sorted hsorted
  · omega
  · simp only [List.length_cons]
    omega

/-- Witness for C8 at a concrete unsorted calendar. -/
theorem trading_day_offset_monotone_witness :
    ∃ a b, getTradingDayOffset 2 0 [5, 1, 3] = some a ∧
      getTradingDayOffset 2 (0 + 1) [5, 1, 3] = some b ∧ a ≤ b :=
  trading_day_offset_monotone [5, 1, 3] 2 0 (by decide)

/-- C10: the resolver returns `none` exactly on an empty calendar, and on a
non-empty calendar its result is always a member of the supplied
trading-day list. -/
theorem trading_day_offset_mem (tradingDays : List ℤ) (earningsDate offset : ℤ) :
    (tradingDays = [] → getTradingDayOffset earningsDate offset tradingDays = none) ∧
    (tradingDays ≠ [] → ∃ x, x ∈ tradingDays ∧
      getTradingDayOffset earningsDate offset tradingDays = some x) := by
  constructor
  · intro h
    subst h
    rfl
  · intro hne
    have hperm := List.perm_insertionSort (· ≤ ·) tradingDays
    have hsorted := List.sorted_insertionSort (· ≤ ·) tradingDays
    have hsne : tradingDays.insertionSort (· ≤ ·) ≠ [] := by
      intro h
      apply hne
      have hlen := hperm.length_eq
      rw [h] at hlen
      exact List.length_eq_zero.mp hlen.symm
    obtain ⟨d, ds, hcons⟩ : ∃ d ds, tradingDays.insertionSort (· ≤ ·) = d :: ds := by
      cases h : tradingDays.insertionSort (· ≤ ·) with
      | nil => exact absurd h hsne
      | cons d ds => exact ⟨d, ds, rfl⟩
    rw [hcons] at hsorted
    rw [← getTradingDayOffset_insertionSort earningsDate offset tradingDays, hcons]
    obtain ⟨pos, hpos, heq⟩ := getTradingDayOffset_sorted_eq d ds earningsDate offset hsorted
    refine ⟨_, ?_, heq⟩
    have hmem : (d :: ds).getD
        (Int.toNat (max 0 (min ((pos : ℤ) + offset) (ds.length : ℤ)))) 0 ∈ d :: ds := by
      apply getD_mem_of_lt
      simp only [List.length_cons]
      omega
    have : (d :: ds).getD
        (Int.toNat (max 0 (min ((pos : ℤ) + offset) (ds.length : ℤ)))) 0 ∈
        tradingDays.insertionSort (· ≤ ·) := by
      rw [hcons]
      exact hmem
    exact hperm.mem_iff.mp this

/-- Witness for C10 on a concrete non-empty calendar. -/
theorem trading_day_offset_mem_witness :
    ∃ x, x ∈ ([4, 2] : List ℤ) ∧ getTradingDayOffset 7 3 [4, 2] = some x :=
  (trading_day_offset_mem [4, 2] 7 3).2 (by decide)

/- ## Helper lemmas: folded minima and maxima -/

lemma foldl_min_le_init {α : Type} (f : α → ℚ) (l : List α) (a : ℚ) :
    l.foldl (fun m x => min m (f x)) a ≤ a := by
  induction l generalizing a with
  | nil => exact le_refl a
  | cons y ys ih => exact le_trans (ih (min a (f y))) (min_le_left _ _)

lemma foldl_min_le_mem {α : Type} (f : α → ℚ) {l : List α} {x : α} (hx : x ∈ l) (a : ℚ) :
    l.foldl (fun m y => min m (f y)) a ≤ f x := by
  induction l generalizing a with
  | nil => cases hx
  | cons y ys ih =>
    rcases List.mem_cons.mp hx with h | h
    · subst h
      exact le_trans (foldl_min_le_init f ys (min a (f x))) (min_le_right _ _)
    · exact ih h _

lemma foldl_min_attained {α : Type} (f : α → ℚ) (l : List α) (a : ℚ) :
    l.foldl (fun m x => min m (f x)) a = a ∨
      ∃ x ∈ l, l.foldl (fun m x => min m (f x)) a = f x := by
  induction l generalizing a with
  | nil => exact Or.inl rfl
  | cons y ys ih =>
    rcases ih (min a (f y)) with h | ⟨x, hx, hh⟩
    · rcases min_choice a (f y) with h2 | h2
      · exact Or.inl (by rw [List.foldl_cons, h, h2])
      · exact Or.inr ⟨y, List.mem_cons_self y ys, by rw [List.foldl_cons, h, h2]⟩
    · exact Or.inr ⟨x, List.mem_cons_of_mem _ hx, by rw [List.foldl_cons]; exact hh⟩

lemma foldl_max_ge_init {α : Type} (f : α → ℚ) (l : List α) (a : ℚ) :
    a ≤ l.foldl (fun m x => max m (f x)) a := by
  induction l generalizing a with
  | nil => exact le_refl a
  | cons y ys ih => exact le_trans (le_max_left _ _) (ih (max a (f y)))

lemma foldl_max_ge_mem {α : Type} (f : α → ℚ) {l : List α} {x : α} (hx : x ∈ l) (a : ℚ) :
    f x ≤ l.foldl (fun m y => max m (f y)) a := by
  induction l generalizing a with
  | nil => cases hx
  | cons y ys ih =>
    rcases List.mem_cons.mp hx with h | h
    · subst h
      exact le_trans (le_max_right _ _) (foldl_max_ge_init f ys (max a (f x)))
    · exact ih h _

lemma foldl_max_attained {α : Type} (f : α → ℚ) (l : List α) (a : ℚ) :
    l.foldl (fun m x => max m (f x)) a = a ∨
      ∃ x ∈ l, l.foldl (fun m x => max m (f x)) a = f x := by
  induction l generalizing a with
  | nil => exact Or.inl rfl
  | cons y ys ih =>
    rcases ih (max a (f y)) with h | ⟨x, hx, hh⟩
    · rcases max_choice a (f y) with h2 | h2
      · exact Or.inl (by rw [List.foldl_cons, h, h2])
      · exact Or.inr ⟨y, List.mem_cons_self y ys, by rw [List.foldl_cons, h, h2]⟩
    · exact Or.inr ⟨x, List.mem_cons_of_mem _ hx, by rw [List.foldl_cons]; exact hh⟩

lemma foldl_min_eq_of_all {l : List ℚ} {c : ℚ} (h : ∀ x ∈ l, x = c) :
    l.foldl min c = c := by
  induction l with
  | nil => rfl
  | cons y ys ih =>
    have hy : y = c := h y (List.mem_cons_self y ys)
    rw [List.foldl_cons, hy, min_self]
    exact ih (fun x hx => h x (List.mem_cons_of_mem _ hx))

lemma foldl_max_eq_of_all {l : List ℚ} {c : ℚ} (h : ∀ x ∈ l, x = c) :
    l.foldl max c = c := by
  induction l with
  | nil => rfl
  | cons y ys ih =>
    have hy : y = c := h y (List.mem_cons_self y ys)
    rw [List.foldl_cons, hy, max_self]
    exact ih (fun x hx => h x (List.mem_cons_of_mem _ hx))

/- ## Helper lemmas: trailing percentile window -/

lemma trailingValid_window_zero (series : List (Option ℚ)) (i : ℕ) :
    trailingValid series 0 i = [] := by
  unfold trailingValid
  simp

lemma mem_trailingValid {series : List (Option ℚ)} {window i : ℕ} {v : ℚ}
    (hv : series.get? i = some (some v)) (hw : trailingValid series window i ≠ []) :
    v ∈ trailingValid series window i := by
  rcases Nat.eq_zero_or_pos window with h0 | hpos
  · exact absurd (h0 ▸ trailingValid_window_zero series i) hw
  · have hstart : i + 1 - window ≤ i := by omega
    have hidx : (i - (i + 1 - window)) < i + 1 - (i + 1 - window) := by omega
    have h1 : ((series.drop (i + 1 - window)).take (i + 1 - (i + 1 - window))).get?
        (i - (i + 1 - window)) = some (some v) := by
      rw [List.get?_take hidx, List.get?_drop]
      have : i + 1 - window + (i - (i + 1 - window)) = i := by omega
      rw [this]
      exact hv
    have hmem : some v ∈ (series.drop (i + 1 - window)).take (i + 1 - (i + 1 - window)) :=
      List.get?_mem h1
    exact List.mem_filterMap.mpr ⟨some v, hmem, rfl⟩

/-- C6: the rolling percentile rank is undefined with fewer than 2 valid
samples in the trailing window, always lies in `[0, 100]` when defined,
equals the min-max rescaled formula when the window max exceeds the window
min, and equals exactly 50 when every valid window value is identical. -/
theorem percentile_rank_bounds (series : List (Option ℚ)) (window i : ℕ) :
    ((trailingValid series window i).length < 2 → percentileAt series window i = none) ∧
    (∀ p, percentileAt series window i = some p → 0 ≤ p ∧ p ≤ 100) ∧
    (∀ v w0 w1 ws, series.get? i = some (some v) →
      trailingValid series window i = w0 :: w1 :: ws →
      ((w1 :: ws).foldl min w0 < (w1 :: ws).foldl max w0 →
        percentileAt series window i =
          some ((v - (w1 :: ws).foldl min w0) /
            ((w1 :: ws).foldl max w0 - (w1 :: ws).foldl min w0) * 100)) ∧
      ((∀ x ∈ w0 :: w1 :: ws, x = w0) → percentileAt series window i = some 50)) := by
  have key : ∀ v w0 w1 ws, series.get? i = some (some v) →
      trailingValid series window i = w0 :: w1 :: ws →
      percentileAt series window i =
        (if 0 < (w1 :: ws).foldl max w0 - (w1 :: ws).foldl min w0 then
          some ((v - (w1 :: ws).foldl min w0) /
            ((w1 :: ws).foldl max w0 - (w1 :: ws).foldl min w0) * 100)
        else some 50) := by
    intro v w0 w1 ws hv ht
    unfold percentileAt
    rw [hv, ht]
  refine ⟨?_, ?_, ?_⟩
  · intro hlen
    unfold percentileAt
    rcases hg : series.get? i with _ | ov
    · rfl
    · rcases ov with _ | v
      · rfl
      · rcases ht : trailingValid series window i with _ | ⟨w0, tl⟩
        · rfl
        · rcases tl with _ | ⟨w1, ws⟩
          · rfl
          · rw [ht] at hlen
            simp only [List.length_cons] at hlen
            omega
  · intro p hp
    rcases hg : series.get? i with _ | ov
    · unfold percentileAt at hp
      rw [hg] at hp
      cases hp
    · rcases ov with _ | v
      · unfold percentileAt at hp
        rw [hg] at hp
        cases hp
      · rcases ht : trailingValid series window i with _ | ⟨w0, tl⟩
        · unfold percentileAt at hp
          rw [hg, ht] at hp
          cases hp
        · rcases tl with _ | ⟨w1, ws⟩
          · unfold percentileAt at hp
            rw [hg, ht] at hp
            cases hp
          · rw [key v w0 w1 ws hg ht] at hp
            have hvmem : v ∈ w0 :: w1 :: ws := by
              rw [← ht]
              exact mem_trailingValid hg (by rw [ht]; exact List.cons_ne_nil _ _)
            have hmn : (w1 :: ws).foldl min w0 ≤ v := by
              rcases List.mem_cons.mp hvmem with h | h
              · rw [h]
                exact foldl_min_le_init id (w1 :: ws) w0
              · exact foldl_min_le_mem id h w0
            have hmx : v ≤ (w1 :: ws).foldl max w0 := by
              rcases List.mem_cons.mp hvmem with h | h
              · rw [h]
                exact foldl_max_ge_init id (w1 :: ws) w0
              · exact foldl_max_ge_mem id h w0
            split at hp
            · next hlt =>
              injection hp with hp
              rw [← hp]
              constructor
              · apply mul_nonneg
                · apply div_nonneg
                  · linarith
                  · linarith
                · norm_num
              · have h1 : (v - (w1 :: ws).foldl min w0) /
                    ((w1 :: ws).foldl max w0 - (w1 :: ws).foldl min w0) ≤ 1 :=
                  (div_le_one hlt).mpr (by linarith)
                have h2 := mul_le_mul_of_nonneg_right h1 (by norm_num : (0 : ℚ) ≤ 100)
                simpa using h2
            · next hnlt =>
              injection hp with hp
              rw [← hp]
              norm_num
  · intro v w0 w1 ws hv ht
    have hkey := key v w0 w1 ws hv ht
    constructor
    · intro hlt
      rw [hkey, if_pos (sub_pos.mpr hlt)]
    · intro hall
      have hmn : (w1 :: ws).foldl min w0 = w0 :=
        foldl_min_eq_of_all (fun x hx => hall x (List.mem_cons_of_mem _ hx))
      have hmx : (w1 :: ws).foldl max w0 = w0 :=
        foldl_max_eq_of_all (fun x hx => hall x (List.mem_cons_of_mem _ hx))
      rw [hkey, hmn, hmx]
      simp

/-- Witness for C6: a 2-sample window `[1, 3]` puts the rank of the larger
sample at exactly 100. -/
theorem percentile_rank_bounds_witness : percentileAt [some 1, some 3] 252 1 = some 100 := by
  have h := ((percentile_rank_bounds [some 1, some 3] 252 1).2.2 3 1 3 [] rfl
    (by decide)).1 (by norm_num [List.foldl, min_def, max_def])
  rw [h]
  norm_num [List.foldl, min_def, max_def]

/- ## Helper lemmas: indicator enrichment -/

lemma mapWithIdx_get? (f : ℕ → Bar → Bar) (n : ℕ) (l : List Bar) (i : ℕ) :
    (mapWithIdx f n l).get? i = (l.get? i).map (f (n + i)) := by
  induction l generalizing n i with
  | nil => simp [mapWithIdx]
  | cons b bs ih =>
    cases i with
    | zero => rfl
    | succ j =>
      show (mapWithIdx f (n + 1) bs).get? j = (bs.get? j).map (f (n + (j + 1)))
      have hn : n + (j + 1) = n + 1 + j := by omega
      rw [hn, ih]

lemma setRvols_date (b : Bar) (r20 r50 : Option ℚ) : (setRvols b r20 r50).date = b.date := rfl

lemma setRvols_rvol20 (b : Bar) (r20 r50 : Option ℚ) : (setRvols b r20 r50).rvol20 = r20 := rfl

lemma setRvols_rvol50 (b : Bar) (r20 r50 : Option ℚ) : (setRvols b r20 r50).rvol50 = r50 := rfl

/-- C1: whenever a T-11 bar exists and carries defined positive volume-SMA
baselines, every bar at or after the T-11 position receives volume ratios
with the frozen T-11 denominators; with no T-11 bar every ratio keeps the
unfrozen rolling-SMA denominator. -/
theorem rvol_frozen_baseline (df : List Bar) (w : Windows) :
    (∀ t base s20 s50, t11Index df w.earningsDate = some t → df.get? t = some base →
      base.volSMA20 = some s20 → 0 < s20 → base.volSMA50 = some s50 → 0 < s50 →
      ∀ i b, t ≤ i → (calculateIndicators df w).get? i = some b →
        ∃ orig, df.get? i = some orig ∧ b.date = orig.date ∧
          b.rvol20 = some (orig.volume / s20) ∧ b.rvol50 = some (orig.volume / s50)) ∧
    (t11Index df w.earningsDate = none →
      ∀ i b, (calculateIndicators df w).get? i = some b →
        ∃ orig, df.get? i = some orig ∧ b.date = orig.date ∧
          b.rvol20 = unfrozenRvol20 orig ∧ b.rvol50 = unfrozenRvol50 orig) := by
  constructor
  · intro t base s20 s50 ht hbase h20 h20p h50 h50p i b hti hb
    simp only [calculateIndicators, ht, hbase, mapWithIdx_get?] at hb
    cases horig : df.get? i with
    | none =>
      rw [horig] at hb
      cases hb
    | some orig =>
      rw [horig] at hb
      simp only [Option.map_some', Nat.zero_add, Option.some.injEq] at hb
      refine ⟨orig, rfl, ?_⟩
      rcases lt_or_eq_of_le hti with hlt | heq
      · rw [if_pos hlt] at hb
        rw [← hb]
        refine ⟨rfl, ?_, ?_⟩
        · rw [setRvols_rvol20]
          simp only [frozenRatio, h20]
          rw [if_pos h20p]
        · rw [setRvols_rvol50]
          simp only [frozenRatio, h50]
          rw [if_pos h50p]
      · rw [← heq] at horig
        have horigbase : orig = base := by
          rw [horig] at hbase
          exact (Option.some.injEq _ _ ▸ hbase).symm ▸ rfl
        rw [← heq, if_neg (lt_irrefl t)] at hb
        rw [← hb]
        refine ⟨rfl, ?_, ?_⟩
        · rw [setRvols_rvol20]
          unfold unfrozenRvol20
          rw [horigbase, h20]
          rfl
        · rw [setRvols_rvol50]
          unfold unfrozenRvol50
          rw [horigbase, h50]
          rfl
  · intro ht i b hb
    simp only [calculateIndicators, ht, List.get?_map] at hb
    cases horig : df.get? i with
    | none =>
      rw [horig] at hb
      cases hb
    | some orig =>
      rw [horig] at hb
      simp only [Option.map_some', Option.some.injEq] at hb
      exact ⟨orig, rfl, by rw [← hb]; exact ⟨rfl, rfl, rfl⟩⟩

/-- Test fixture: a bar with fixed volume SMAs `20 -> 2`, `50 -> 4`. -/
def mkTestBar (d : ℤ) (vol : ℚ) : Bar :=
  ⟨d, 1, 1, 1, vol, some 2, some 4, none, none, none, none⟩

/-- Test fixture: twelve bars dated 0..11, all with volume 10. -/
def exDf1 : List Bar := (List.range 12).map (fun k => mkTestBar (k : ℤ) 10)

/-- Test fixture: windows anchored at date 11 (so T-11 is position 0). -/
def exW1 : Windows := ⟨11, none, none, none, none, fun _ => none⟩

/-- The enriched bar expected at position 5 of `exDf1`. -/
def exB5 : Bar := ⟨5, 1, 1, 1, 10, some 2, some 4, none, none, some (10 / 2), some (10 / 4)⟩

/-- Witness for C1: in `exDf1` the T-11 position is 0 with baselines 2 and
4, and the bar at position 5 gets ratios `10/2` and `10/4`. -/
theorem rvol_frozen_baseline_witness :
    ∃ orig, exDf1.get? 5 = some orig ∧ exB5.date = orig.date ∧
      exB5.rvol20 = some (orig.volume / 2) ∧ exB5.rvol50 = some (orig.volume / 4) :=
  (rvol_frozen_baseline exDf1 exW1).1 0 (mkTestBar 0 10) 2 4 (by decide) (by decide) rfl
    (by norm_num) rfl (by norm_num) 5 exB5 (by omega) rfl

/- ## Accumulation zone (C3) -/

lemma findAccumulationZone_eq (df : List Bar) (w : Windows) (s e : ℤ) (b : Bar)
    (bs : List Bar) (hs : w.accStart = some s) (he : w.accEnd = some e)
    (hwin : accWindow df s e = b :: bs) :
    findAccumulationZone df w =
      (some (bs.foldl (fun acc x => min acc (typicalPrice x)) (typicalPrice b)),
        ((b :: bs).filter (fun x => decide (typicalPrice x =
            bs.foldl (fun acc x => min acc (typicalPrice x)) (typicalPrice b)))).map
          (mkAccDay df w.earningsDate)) := by
  simp only [findAccumulationZone, hs, he]
  rw [hwin]

lemma findAccumulationZone_none (df : List Bar) (w : Windows)
    (h : w.accStart = none ∨ w.accEnd = none ∨
      (∃ s e, w.accStart = some s ∧ w.accEnd = some e ∧ accWindow df s e = [])) :
    findAccumulationZone df w = (none, []) := by
  rcases h with h | h | ⟨s, e, hs, he, hwin⟩
  · simp only [findAccumulationZone, h]
  · rcases hs : w.accStart with _ | s
    · simp only [findAccumulationZone, hs]
    · simp only [findAccumulationZone, hs, h]
  · simp only [findAccumulationZone, hs, he]
    rw [hwin]

/-- C3: when the accumulation window is non-empty the zone's price is the
minimum typical price over the window, it is attained, and the reported
accumulation days are exactly the snapshots of all bars attaining it — in
particular every tying bar appears. -/
theorem accumulation_min_typical_all_ties (df : List Bar) (w : Windows) (s e : ℤ)
    (b : Bar) (bs : List Bar) (hs : w.accStart = some s) (he : w.accEnd = some e)
    (hwin : accWindow df s e = b :: bs) :
    ∃ m, findAccumulationZone df w =
        (some m, ((b :: bs).filter (fun x => decide (typicalPrice x = m))).map
          (mkAccDay df w.earningsDate)) ∧
      (∀ x ∈ b :: bs, m ≤ typicalPrice x) ∧
      (∃ x ∈ b :: bs, typicalPrice x = m) ∧
      (∀ x ∈ b :: bs, typicalPrice x = m →
        mkAccDay df w.earningsDate x ∈ (findAccumulationZone df w).2) := by
  have hzone := findAccumulationZone_eq df w s e b bs hs he hwin
  refine ⟨bs.foldl (fun acc x => min acc (typicalPrice x)) (typicalPrice b),
    hzone, ?_, ?_, ?_⟩
  · intro x hx
    rcases List.mem_cons.mp hx with h | h
    · rw [h]
      exact foldl_min_le_init typicalPrice bs (typicalPrice b)
    · exact foldl_min_le_mem typicalPrice h (typicalPrice b)
  · rcases foldl_min_attained typicalPrice bs (typicalPrice b) with h | ⟨x, hx, hh⟩
    · exact ⟨b, List.mem_cons_self b bs, h.symm⟩
    · exact ⟨x, List.mem_cons_of_mem _ hx, hh.symm⟩
  · intro x hx hxm
    rw [hzone]
    exact List.mem_map.mpr ⟨x, List.mem_filter.mpr ⟨hx, decide_eq_true hxm⟩, rfl⟩

/-- Test fixture: a bar with identical prices per date for tie scenarios. -/
def tieBar (d : ℤ) : Bar := ⟨d, 1, 2, 3, 1, none, none, none, none, none, none⟩

/-- Test fixture: two bars with identical (and hence tying) typical prices. -/
def exDf3 : List Bar := [tieBar 1, tieBar 2]

/-- Test fixture: windows putting both bars of `exDf3` inside the
accumulation window. -/
def exW3 : Windows := ⟨10, none, some 0, some 5, none, fun _ => none⟩

/-- Witness for C3 on a window with two tying days: both snapshots appear
in the reported accumulation-day list. -/
theorem accumulation_min_typical_all_ties_witness :
    ∃ m, findAccumulationZone exDf3 exW3 =
        (some m, (([tieBar 1, tieBar 2]).filter (fun x => decide (typicalPrice x = m))).map
          (mkAccDay exDf3 exW3.earningsDate)) ∧
      (∀ x ∈ [tieBar 1, tieBar 2], m ≤ typicalPrice x) ∧
      (∃ x ∈ [tieBar 1, tieBar 2], typicalPrice x = m) ∧
      (∀ x ∈ [tieBar 1, tieBar 2], typicalPrice x = m →
        mkAccDay exDf3 exW3.earningsDate x ∈ (findAccumulationZone exDf3 exW3).2) :=
  accumulation_min_typical_all_ties exDf3 exW3 0 5 (tieBar 1) [tieBar 2] rfl rfl (by decide)

/- ## Trading-day annotation of accumulation days (C7) -/

/-- C7 (amended): every reported accumulation day's `days_before_earnings`
equals the number of bars in the half-open range from the accumulation day
(inclusive) to the anchor (exclusive) — one more than the strictly-between
count whenever the day's own bar is present. -/
theorem days_before_earnings_count (df : List Bar) (w : Windows) (d : AccDay)
    (hmem : d ∈ (findAccumulationZone df w).2) :
    d.days_before_earnings =
      (df.filter (fun x => decide (d.date ≤ x.date) && decide (x.date < w.earningsDate))).length := by
  rcases hs : w.accStart with _ | s
  · rw [findAccumulationZone_none df w (Or.inl hs)] at hmem
    exact absurd hmem (List.not_mem_nil d)
  · rcases he : w.accEnd with _ | e
    · rw [findAccumulationZone_none df w (Or.inr (Or.inl he))] at hmem
      exact absurd hmem (List.not_mem_nil d)
    · rcases hwin : accWindow df s e with _ | ⟨b, bs⟩
      · rw [findAccumulationZone_none df w (Or.inr (Or.inr ⟨s, e, hs, he, hwin⟩))] at hmem
        exact absurd hmem (List.not_mem_nil d)
      · rw [findAccumulationZone_eq df w s e b bs hs he hwin] at hmem
        obtain ⟨x, hx, hxd⟩ := List.mem_map.mp hmem
        rw [← hxd]
        simp only [mkAccDay, tradingDaysBetween]

/- Shared concrete scenario: four bars dated 1..4, a single-bar
accumulation window at date 3, anchor date 6 beyond the data. -/

/-- Test fixture: observation-region bar, high 12. -/
def exA1 : Bar := ⟨1, 8, 12, 10, 1, none, none, none, none, none, none⟩

/-- Test fixture: observation-region bar, high 9. -/
def exA2 : Bar := ⟨2, 7, 9, 8, 1, none, none, none, none, none, none⟩

/-- Test fixture: the trough bar inside the accumulation window. -/
def exA3 : Bar := ⟨3, 1, 2, 3, 1, none, none, none, none, none, none⟩

/-- Test fixture: a bar after the accumulation window. -/
def exA4 : Bar := ⟨4, 4, 5, 6, 1, none, none, none, none, none, none⟩

/-- Test fixture: the four-bar series. -/
def exDfA : List Bar := [exA1, exA2, exA3, exA4]

/-- Test fixture: windows with observation start 1 and the single-day
accumulation window `[3, 3]`, anchored at date 6. -/
def exWA9 : Windows := ⟨6, some 1, some 3, some 3, none, fun _ => none⟩

/-- The accumulation-day snapshot the zone produces for `exA3`. -/
def exDayA : AccDay := ⟨3, 1, 2, 3, typicalPrice exA3, none, none, none, none, 2⟩

lemma calcInd_exDfA (w : Windows) (hed : w.earningsDate = 6) :
    calculateIndicators exDfA w = exDfA := by
  unfold calculateIndicators
  rw [show t11Index exDfA w.earningsDate = none from by rw [hed]; decide]
  rfl

lemma zone_eval_exDfA (w : Windows) (hs : w.accStart = some 3) (he : w.accEnd = some 3)
    (hed : w.earningsDate = 6) :
    findAccumulationZone exDfA w = (some (typicalPrice exA3), [exDayA]) := by
  simp only [findAccumulationZone, hs, he]
  rw [show accWindow exDfA 3 3 = [exA3] from by decide]
  simp only [List.foldl_nil, List.filter_cons, List.filter_nil, decide_eq_true_eq, if_true,
    List.map_cons, List.map_nil]
  rw [hed]
  rfl

/-- Counterexample for C7: the accumulation day reported for `exA3` carries
`days_before_earnings = 2` (bars dated 3 and 4), while the count of bars
strictly between day 3 and anchor 6 is 1 (only the bar dated 4). -/
theorem days_before_earnings_counterexample :
    exDayA ∈ (findAccumulationZone exDfA exWA9).2 ∧
    exDayA.days_before_earnings = 2 ∧
    specTradingDaysStrictlyBetween exDayA.date exWA9.earningsDate exDfA = 1 ∧
    exDayA.days_before_earnings ≠
      specTradingDaysStrictlyBetween exDayA.date exWA9.earningsDate exDfA := by
  refine ⟨?_, rfl, rfl, by decide⟩
  rw [zone_eval_exDfA exWA9 rfl rfl rfl]
  exact List.mem_singleton_self exDayA

/-- Witness for amended C7 at the shared concrete scenario. -/
theorem days_before_earnings_count_witness :
    exDayA.days_before_earnings =
      (exDfA.filter (fun x => decide (exDayA.date ≤ x.date) &&
        decide (x.date < exWA9.earningsDate))).length :=
  days_before_earnings_count exDfA exWA9 exDayA
    (by rw [zone_eval_exDfA exWA9 rfl rfl rfl]; exact List.mem_singleton_self exDayA)

/- ## Missing window boundaries (C4) -/

/-- C4 (amended): a missing accumulation start or end, or an empty
accumulation window, short-circuits the analyzer to the defined empty
result; a missing observation start does not short-circuit — it only nulls
the reference-high fields and the drawdown. -/
theorem analyze_missing_boundary_empty (df : List Bar) (w : Windows) :
    ((w.accStart = none ∨ w.accEnd = none) → analyzeEarningsEvent df w = emptyResult) ∧
    (∀ s e, w.accStart = some s → w.accEnd = some e →
      accWindow (calculateIndicators df w) s e = [] →
      analyzeEarningsEvent df w = emptyResult) ∧
    (w.obsStart = none →
      (analyzeEarningsEvent df w).reference_high = ⟨none, none⟩ ∧
      (analyzeEarningsEvent df w).max_drawdown_pct = none) := by
  refine ⟨?_, ?_, ?_⟩
  · intro h
    unfold analyzeEarningsEvent
    rw [findAccumulationZone_none (calculateIndicators df w) w (Or.imp_right Or.inl h)]
  · intro s e hs he hwin
    unfold analyzeEarningsEvent
    rw [findAccumulationZone_none (calculateIndicators df w) w
      (Or.inr (Or.inr ⟨s, e, hs, he, hwin⟩))]
  · intro hobs
    unfold analyzeEarningsEvent
    rcases hz : findAccumulationZone (calculateIndicators df w) w with ⟨op, days⟩
    rcases op with _ | p
    · exact ⟨rfl, rfl⟩
    · rcases days with _ | ⟨d0, ds⟩
      · exact ⟨rfl, rfl⟩
      · constructor
        · show (buildResult (calculateIndicators df w) w p d0 ds).reference_high = ⟨none, none⟩
          simp only [buildResult, calculateReferenceHigh, hobs]
        · show (buildResult (calculateIndicators df w) w p d0 ds).max_drawdown_pct = none
          simp only [buildResult, calculateReferenceHigh, hobs]
          rfl

/-- Test fixture: like `exWA9` but with a missing observation start. -/
def exWA4 : Windows := ⟨6, none, some 3, some 3, none, fun _ => none⟩

/-- Counterexample for C4: with the observation start missing (but the
accumulation window intact) the analyzer does not return the empty result —
the accumulation price is still computed. -/
theorem analyze_obs_missing_not_empty :
    exWA4.obsStart = none ∧
    (analyzeEarningsEvent exDfA exWA4).accumulation_price = some (typicalPrice exA3) ∧
    analyzeEarningsEvent exDfA exWA4 ≠ emptyResult := by
  have hz : findAccumulationZone (calculateIndicators exDfA exWA4) exWA4 =
      (some (typicalPrice exA3), [exDayA]) := by
    rw [calcInd_exDfA exWA4 rfl]
    exact zone_eval_exDfA exWA4 rfl rfl rfl
  have hana : analyzeEarningsEvent exDfA exWA4 =
      buildResult (calculateIndicators exDfA exWA4) exWA4 (typicalPrice exA3) exDayA [] := by
    unfold analyzeEarningsEvent
    rw [hz]
  refine ⟨rfl, by rw [hana]; rfl, ?_⟩
  intro hcontra
  have hne : (buildResult (calculateIndicators exDfA exWA4) exWA4 (typicalPrice exA3)
      exDayA []).accumulation_price = some (typicalPrice exA3) := rfl
  rw [hana] at hcontra
  rw [hcontra] at hne
  exact Option.noConfusion hne

/-- Test fixture: windows with every boundary missing. -/
def exW4b : Windows := ⟨0, none, none, none, none, fun _ => none⟩

/-- Witness for amended C4: with the accumulation start missing the
analyzer yields the defined empty result. -/
theorem analyze_missing_boundary_empty_witness :
    analyzeEarningsEvent [] exW4b = emptyResult :=
  (analyze_missing_boundary_empty [] exW4b).1 (Or.inl rfl)

/- ## Reference high (C9) -/

lemma mem_mapWithIdx {f : ℕ → Bar → Bar} {n : ℕ} {l : List Bar} {y : Bar}
    (hy : y ∈ mapWithIdx f n l) : ∃ i x, x ∈ l ∧ y = f i x := by
  induction l generalizing n with
  | nil => cases hy
  | cons b bs ih =>
    rcases List.mem_cons.mp hy with h | h
    · exact ⟨n, b, List.mem_cons_self b bs, h⟩
    · obtain ⟨i, x, hx, hyx⟩ := ih h
      exact ⟨i, x, List.mem_cons_of_mem _ hx, hyx⟩

lemma mapWithIdx_pairwise_date {f : ℕ → Bar → Bar} (hf : ∀ i b, (f i b).date = b.date)
    {l : List Bar} (hl : l.Pairwise (fun a b => a.date ≤ b.date)) (n : ℕ) :
    (mapWithIdx f n l).Pairwise (fun a b => a.date ≤ b.date) := by
  induction l generalizing n with
  | nil => exact List.Pairwise.nil
  | cons b bs ih =>
    rcases List.pairwise_cons.mp hl with ⟨hb, hbs⟩
    refine List.pairwise_cons.mpr ⟨?_, ih hbs (n + 1)⟩
    intro y hy
    obtain ⟨i, x, hx, rfl⟩ := mem_mapWithIdx hy
    rw [hf n b, hf i x]
    exact hb x hx

lemma calcInd_pairwise_date (df : List Bar) (w : Windows)
    (h : df.Pairwise fun a b => a.date ≤ b.date) :
    (calculateIndicators df w).Pairwise fun a b => a.date ≤ b.date := by
  rcases ht : t11Index df w.earningsDate with _ | t
  · simp only [calculateIndicators, ht]
    exact List.Pairwise.map _ (fun a b hab => hab) h
  · rcases hbase : df.get? t with _ | base
    · simp only [calculateIndicators, ht, hbase]
      exact List.Pairwise.map _ (fun a b hab => hab) h
    · simp only [calculateIndicators, ht, hbase]
      exact mapWithIdx_pairwise_date (fun i b => by split <;> rfl) h 0

lemma exists_find?_eq_some {α : Type} (p : α → Bool) {l : List α}
    (h : ∃ x ∈ l, p x = true) : ∃ y, l.find? p = some y := by
  induction l with
  | nil =>
    obtain ⟨x, hx, _⟩ := h
    cases hx
  | cons a as ih =>
    by_cases hpa : p a = true
    · exact ⟨a, List.find?_cons_of_pos as hpa⟩
    · obtain ⟨x, hx, hpx⟩ := h
      rcases List.mem_cons.mp hx with rfl | hx2
      · exact absurd hpx hpa
      · obtain ⟨y, hy⟩ := ih ⟨x, hx2, hpx⟩
        exact ⟨y, by rw [List.find?_cons_of_neg as (by simpa using hpa)]; exact hy⟩

lemma calculateReferenceHigh_cons (df : List Bar) (w : Windows) (accDate s : ℤ)
    (hobs : w.obsStart = some s) {b : Bar} {bs : List Bar}
    (hwin : refWindow df s accDate = b :: bs) :
    ∃ r, r ∈ b :: bs ∧
      calculateReferenceHigh df w accDate = ⟨some r.high, some r.date⟩ ∧
      ∀ x ∈ b :: bs, x.high ≤ r.high := by
  have hex : ∃ x ∈ b :: bs,
      (fun x => decide (x.high = bs.foldl (fun m y => max m y.high) b.high)) x = true := by
    rcases foldl_max_attained Bar.high bs b.high with h | ⟨x, hx, hh⟩
    · exact ⟨b, List.mem_cons_self b bs, decide_eq_true h.symm⟩
    · exact ⟨x, List.mem_cons_of_mem _ hx, decide_eq_true hh.symm⟩
  obtain ⟨r, hr⟩ := exists_find?_eq_some _ hex
  refine ⟨r, List.mem_of_find?_eq_some hr, ?_, ?_⟩
  · simp only [calculateReferenceHigh, hobs, hwin]
    rw [hr]
  · intro x hx
    have hpr := List.find?_some hr
    simp only [decide_eq_true_eq] at hpr
    rw [hpr]
    rcases List.mem_cons.mp hx with h | h
    · rw [h]
      exact foldl_max_ge_init Bar.high bs b.high
    · exact foldl_max_ge_mem Bar.high h b.high

/-- C9: on a date-sorted series with a non-empty accumulation result, the
first reported accumulation day is the earliest, the analyzer's reference
high is computed from the observation start up to (excluding) that day's
date, and it is the maximum high (with its date) over that sub-window —
null when the sub-window is empty or the observation start is missing. -/
theorem reference_high_max_over_window (df : List Bar) (w : Windows) (p : ℚ)
    (d0 : AccDay) (ds : List AccDay)
    (hsort : df.Pairwise fun a b => a.date ≤ b.date)
    (hzone : findAccumulationZone (calculateIndicators df w) w = (some p, d0 :: ds)) :
    (∀ d ∈ d0 :: ds, d0.date ≤ d.date) ∧
    (analyzeEarningsEvent df w).reference_high =
      calculateReferenceHigh (calculateIndicators df w) w d0.date ∧
    (w.obsStart = none → (analyzeEarningsEvent df w).reference_high = ⟨none, none⟩) ∧
    (∀ s, w.obsStart = some s →
      (refWindow (calculateIndicators df w) s d0.date = [] →
        (analyzeEarningsEvent df w).reference_high = ⟨none, none⟩) ∧
      (∀ b bs, refWindow (calculateIndicators df w) s d0.date = b :: bs →
        ∃ r, r ∈ b :: bs ∧
          (analyzeEarningsEvent df w).reference_high = ⟨some r.high, some r.date⟩ ∧
          ∀ x ∈ b :: bs, x.high ≤ r.high)) := by
  have hana : analyzeEarningsEvent df w =
      buildResult (calculateIndicators df w) w p d0 ds := by
    unfold analyzeEarningsEvent
    rw [hzone]
  have hrh : (analyzeEarningsEvent df w).reference_high =
      calculateReferenceHigh (calculateIndicators df w) w d0.date := by
    rw [hana]
    rfl
  have hearliest : ∀ d ∈ d0 :: ds, d0.date ≤ d.date := by
    rcases hs : w.accStart with _ | s
    · rw [findAccumulationZone_none _ w (Or.inl hs)] at hzone
      simp at hzone
    · rcases he : w.accEnd with _ | e
      · rw [findAccumulationZone_none _ w (Or.inr (Or.inl he))] at hzone
        simp at hzone
      · rcases hwin : accWindow (calculateIndicators df w) s e with _ | ⟨b, bs⟩
        · rw [findAccumulationZone_none _ w (Or.inr (Or.inr ⟨s, e, hs, he, hwin⟩))] at hzone
          simp at hzone
        · rw [findAccumulationZone_eq _ w s e b bs hs he hwin] at hzone
          have h2 := congrArg Prod.snd hzone
          dsimp only at h2
          have hp1 := calcInd_pairwise_date df w hsort
          have hp2 : (accWindow (calculateIndicators df w) s e).Pairwise
              (fun a b => a.date ≤ b.date) := hp1.sublist (List.filter_sublist _)
          rw [hwin] at hp2
          have hp3 : (((b :: bs)).filter (fun x => decide (typicalPrice x =
              bs.foldl (fun acc x => min acc (typicalPrice x)) (typicalPrice b)))).Pairwise
              (fun a b => a.date ≤ b.date) :=
            hp2.sublist (List.filter_sublist (b :: bs))
          have hp4 : ((((b :: bs)).filter (fun x => decide (typicalPrice x =
              bs.foldl (fun acc x => min acc (typicalPrice x)) (typicalPrice b)))).map
              (mkAccDay (calculateIndicators df w) w.earningsDate)).Pairwise
              (fun a b : AccDay => a.date ≤ b.date) :=
            List.Pairwise.map _ (fun a b hab => hab) hp3
          rw [h2] at hp4
          intro d hd
          rcases List.mem_cons.mp hd with h | h
          · rw [h]
          · exact (List.pairwise_cons.mp hp4).1 d h
  refine ⟨hearliest, hrh, ?_, ?_⟩
  · intro hobs
    rw [hrh]
    simp only [calculateReferenceHigh, hobs]
  · intro s hobs
    constructor
    · intro hwin0
      rw [hrh]
      simp only [calculateReferenceHigh, hobs, hwin0]
    · intro b bs hwin
      obtain ⟨r, hrmem, hreq, hrmax⟩ :=
        calculateReferenceHigh_cons (calculateIndicators df w) w d0.date s hobs hwin
      exact ⟨r, hrmem, by rw [hrh, hreq], hrmax⟩

/-- Witness for C9 at the shared concrete scenario: the reference window
`[1, 3)` holds the bars dated 1 and 2 and the maximum high 12 is reported. -/
theorem reference_high_max_over_window_witness :
    (∀ d ∈ [exDayA], exDayA.date ≤ d.date) ∧
    (analyzeEarningsEvent exDfA exWA9).reference_high =
      calculateReferenceHigh (calculateIndicators exDfA exWA9) exWA9 exDayA.date ∧
    (exWA9.obsStart = none →
      (analyzeEarningsEvent exDfA exWA9).reference_high = ⟨none, none⟩) ∧
    (∀ s, exWA9.obsStart = some s →
      (refWindow (calculateIndicators exDfA exWA9) s exDayA.date = [] →
        (analyzeEarningsEvent exDfA exWA9).reference_high = ⟨none, none⟩) ∧
      (∀ b bs, refWindow (calculateIndicators exDfA exWA9) s exDayA.date = b :: bs →
        ∃ r, r ∈ b :: bs ∧
          (analyzeEarningsEvent exDfA exWA9).reference_high = ⟨some r.high, some r.date⟩ ∧
          ∀ x ∈ b :: bs, x.high ≤ r.high)) :=
  reference_high_max_over_window exDfA exWA9 (typicalPrice exA3) exDayA [] (by decide)
    (by rw [calcInd_exDfA exWA9 rfl]; exact zone_eval_exDfA exWA9 rfl rfl rfl)

/- ## Merge idempotence (C5) -/

/-- No two rows of the list share a date. -/
def DateNodup (l : List Row) : Prop := l.Pairwise (fun a b => a.date ≠ b.date)

lemma mem_of_mem_dropDupKeepLast {l : List Row} {r : Row}
    (h : r ∈ dropDupKeepLast l) : r ∈ l := by
  induction l with
  | nil => cases h
  | cons x xs ih =>
    by_cases hany : xs.any (fun z => decide (z.date = x.date)) = true
    · rw [show dropDupKeepLast (x :: xs) = dropDupKeepLast xs from by
        simp only [dropDupKeepLast]; rw [if_pos hany]] at h
      exact List.mem_cons_of_mem _ (ih h)
    · rw [show dropDupKeepLast (x :: xs) = x :: dropDupKeepLast xs from by
        simp only [dropDupKeepLast]; rw [if_neg hany]] at h
      rcases List.mem_cons.mp h with h2 | h2
      · rw [h2]
        exact List.mem_cons_self x xs
      · exact List.mem_cons_of_mem _ (ih h2)

lemma dateNodup_dropDupKeepLast (l : List Row) : DateNodup (dropDupKeepLast l) := by
  induction l with
  | nil => exact List.Pairwise.nil
  | cons x xs ih =>
    by_cases hany : xs.any (fun z => decide (z.date = x.date)) = true
    · rw [show dropDupKeepLast (x :: xs) = dropDupKeepLast xs from by
        simp only [dropDupKeepLast]; rw [if_pos hany]]
      exact ih
    · rw [show dropDupKeepLast (x :: xs) = x :: dropDupKeepLast xs from by
        simp only [dropDupKeepLast]; rw [if_neg hany]]
      refine List.pairwise_cons.mpr ⟨?_, ih⟩
      intro y hy hxy
      apply hany
      exact List.any_eq_true.mpr ⟨y, mem_of_mem_dropDupKeepLast hy, decide_eq_true hxy.symm⟩

lemma dropDupKeepLast_eq_self {l : List Row} (h : DateNodup l) : dropDupKeepLast l = l := by
  induction l with
  | nil => rfl
  | cons x xs ih =>
    rcases List.pairwise_cons.mp h with ⟨hx, hxs⟩
    have hany : xs.any (fun z => decide (z.date = x.date)) = false := by
      rw [List.any_eq_false]
      intro z hz
      simp only [decide_eq_true_eq]
      exact fun hzx => (hx z hz) hzx.symm
    simp only [dropDupKeepLast]
    rw [if_neg (by rw [hany]; exact Bool.false_ne_true), ih hxs]

lemma dropDupKeepLast_ne_nil {l : List Row} (h : l ≠ []) : dropDupKeepLast l ≠ [] := by
  induction l with
  | nil => exact absurd rfl h
  | cons x xs ih =>
    by_cases hany : xs.any (fun z => decide (z.date = x.date)) = true
    · rw [show dropDupKeepLast (x :: xs) = dropDupKeepLast xs from by
        simp only [dropDupKeepLast]; rw [if_pos hany]]
      apply ih
      intro hxs
      rw [hxs] at hany
      exact Bool.false_ne_true hany
    · rw [show dropDupKeepLast (x :: xs) = x :: dropDupKeepLast xs from by
        simp only [dropDupKeepLast]; rw [if_neg hany]]
      exact List.cons_ne_nil _ _

lemma dropDupKeepLast_append_covered {l1 l2 : List Row}
    (h : ∀ r ∈ l1, ∃ y ∈ l2, y.date = r.date) :
    dropDupKeepLast (l1 ++ l2) = dropDupKeepLast l2 := by
  induction l1 with
  | nil => rfl
  | cons x xs ih =>
    obtain ⟨y, hy, hyd⟩ := h x (List.mem_cons_self x xs)
    have hany : (xs ++ l2).any (fun z => decide (z.date = x.date)) = true :=
      List.any_eq_true.mpr ⟨y, List.mem_append.mpr (Or.inr hy), decide_eq_true hyd⟩
    rw [List.cons_append,
      show dropDupKeepLast (x :: (xs ++ l2)) = dropDupKeepLast (xs ++ l2) from by
        simp only [dropDupKeepLast]; rw [if_pos hany]]
    exact ih (fun r hr => h r (List.mem_cons_of_mem _ hr))

lemma mem_dropDupKeepLast_append {X Y : List Row} (hX : DateNodup X) (hY : DateNodup Y)
    (r : Row) : r ∈ dropDupKeepLast (X ++ Y) ↔
      r ∈ Y ∨ (r ∈ X ∧ ∀ y ∈ Y, y.date ≠ r.date) := by
  induction X with
  | nil =>
    rw [List.nil_append, dropDupKeepLast_eq_self hY]
    simp
  | cons x xs ih =>
    have hX' : DateNodup xs := List.Pairwise.of_cons hX
    by_cases hany : (xs ++ Y).any (fun z => decide (z.date = x.date)) = true
    · have hinY : ∃ y ∈ Y, y.date = x.date := by
        obtain ⟨z, hz, hzd⟩ := List.any_eq_true.mp hany
        have hzd2 : z.date = x.date := of_decide_eq_true hzd
        rcases List.mem_append.mp hz with h | h
        · exact absurd hzd2.symm (List.rel_of_pairwise_cons hX h)
        · exact ⟨z, h, hzd2⟩
      rw [List.cons_append,
        show dropDupKeepLast (x :: (xs ++ Y)) = dropDupKeepLast (xs ++ Y) from by
          simp only [dropDupKeepLast]; rw [if_pos hany]]
      rw [ih hX']
      constructor
      · rintro (h | ⟨h1, h2⟩)
        · exact Or.inl h
        · exact Or.inr ⟨List.mem_cons_of_mem _ h1, h2⟩
      · rintro (h | ⟨h1, h2⟩)
        · exact Or.inl h
        · rcases List.mem_cons.mp h1 with h3 | h3
          · obtain ⟨y, hy, hyd⟩ := hinY
            exact absurd (h3 ▸ hyd) (h2 y hy)
          · exact Or.inr ⟨h3, h2⟩
    · have hnone : ∀ z ∈ xs ++ Y, z.date ≠ x.date := by
        intro z hz hzd
        exact hany (List.any_eq_true.mpr ⟨z, hz, decide_eq_true hzd⟩)
      rw [List.cons_append,
        show dropDupKeepLast (x :: (xs ++ Y)) = x :: dropDupKeepLast (xs ++ Y) from by
          simp only [dropDupKeepLast]; rw [if_neg hany]]
      rw [List.mem_cons, ih hX']
      constructor
      · rintro (h | h | ⟨h1, h2⟩)
        · refine Or.inr ⟨h ▸ List.mem_cons_self x xs, ?_⟩
          intro y hy
          rw [h]
          exact hnone y (List.mem_append.mpr (Or.inr hy))
        · exact Or.inl h
        · exact Or.inr ⟨List.mem_cons_of_mem _ h1, h2⟩
      · rintro (h | ⟨h1, h2⟩)
        · exact Or.inr (Or.inl h)
        · rcases List.mem_cons.mp h1 with h3 | h3
          · exact Or.inl h3
          · exact Or.inr (Or.inr ⟨h3, h2⟩)

lemma sortByDate_perm (l : List Row) : List.Perm (sortByDate l) l :=
  List.perm_insertionSort rowLe l

lemma sortByDate_sorted (l : List Row) : (sortByDate l).Pairwise rowLe :=
  List.sorted_insertionSort rowLe l

lemma sortByDate_eq_self {l : List Row} (h : l.Pairwise rowLe) : sortByDate l = l :=
  List.Sorted.insertionSort_eq h

lemma dateNodup_of_perm {l1 l2 : List Row} (hp : List.Perm l1 l2) (h : DateNodup l1) :
    DateNodup l2 :=
  (hp.pairwise_iff (fun {_ _} hab hba => hab hba.symm)).mp h

lemma pairwise_lt_of_le_nodup {l : List Row} (h1 : l.Pairwise rowLe) (h2 : DateNodup l) :
    l.Pairwise (fun a b => a.date < b.date) :=
  (h1.and h2).imp (fun hab => lt_of_le_of_ne hab.1 hab.2)

lemma pairwise_le_of_lt {l : List Row} (h : l.Pairwise (fun a b => a.date < b.date)) :
    l.Pairwise rowLe :=
  h.imp (fun hab => le_of_lt hab)

lemma dateNodup_of_lt {l : List Row} (h : l.Pairwise (fun a b => a.date < b.date)) :
    DateNodup l :=
  h.imp (fun hab => ne_of_lt hab)

lemma eq_of_pairwise_lt_of_mem_iff : ∀ {l1 l2 : List Row},
    l1.Pairwise (fun a b => a.date < b.date) → l2.Pairwise (fun a b => a.date < b.date) →
    (∀ r, r ∈ l1 ↔ r ∈ l2) → l1 = l2
  | [], [], _, _, _ => rfl
  | [], y :: ys, _, _, hiff => absurd ((hiff y).mpr (List.mem_cons_self y ys)) (by simp)
  | x :: xs, [], _, _, hiff => absurd ((hiff x).mp (List.mem_cons_self x xs)) (by simp)
  | x :: xs, y :: ys, h1, h2, hiff => by
    have hx2 : x ∈ y :: ys := (hiff x).mp (List.mem_cons_self x xs)
    have hy1 : y ∈ x :: xs := (hiff y).mpr (List.mem_cons_self y ys)
    have hxy : x = y := by
      rcases List.mem_cons.mp hx2 with h | h
      · exact h
      · rcases List.mem_cons.mp hy1 with h3 | h3
        · exact h3.symm
        · exact absurd (lt_trans (List.rel_of_pairwise_cons h2 h)
            (List.rel_of_pairwise_cons h1 h3)) (lt_irrefl _)
    subst hxy
    have htail : ∀ r, r ∈ xs ↔ r ∈ ys := by
      intro r
      constructor
      · intro hr
        rcases List.mem_cons.mp ((hiff r).mp (List.mem_cons_of_mem _ hr)) with h | h
        · exact absurd (h ▸ List.rel_of_pairwise_cons h1 hr) (lt_irrefl _)
        · exact h
      · intro hr
        rcases List.mem_cons.mp ((hiff r).mpr (List.mem_cons_of_mem _ hr)) with h | h
        · exact absurd (h ▸ List.rel_of_pairwise_cons h2 hr) (lt_irrefl _)
        · exact h
    rw [eq_of_pairwise_lt_of_mem_iff (List.Pairwise.of_cons h1) (List.Pairwise.of_cons h2)
      htail]

lemma mergeData_nil_left (l : List Row) : mergeData [] l = l := rfl

lemma mergeData_nil_right (l : List Row) : mergeData l [] = l := by
  unfold mergeData
  rcases eq_or_ne l [] with rfl | h
  · rfl
  · rw [if_neg h, if_pos rfl]

lemma mem_mergeData {A B : List Row} (hA : DateNodup A) (hB : DateNodup B)
    (hAne : A ≠ []) (hBne : B ≠ []) (r : Row) :
    r ∈ mergeData A B ↔ r ∈ B ∨ (r ∈ A ∧ ∀ y ∈ B, y.date ≠ r.date) := by
  unfold mergeData
  rw [if_neg hAne, if_neg hBne]
  rw [(sortByDate_perm _).mem_iff]
  exact mem_dropDupKeepLast_append hA hB r

lemma mergeData_pairwise_lt {A B : List Row}
    (hA : A.Pairwise (fun a b => a.date < b.date))
    (hB : B.Pairwise (fun a b => a.date < b.date)) :
    (mergeData A B).Pairwise (fun a b => a.date < b.date) := by
  unfold mergeData
  rcases eq_or_ne A [] with rfl | hAne
  · rw [if_pos rfl]
    exact hB
  · rcases eq_or_ne B [] with rfl | hBne
    · rw [if_neg hAne, if_pos rfl]
      exact hA
    · rw [if_neg hAne, if_neg hBne]
      apply pairwise_lt_of_le_nodup (sortByDate_sorted _)
      exact dateNodup_of_perm (sortByDate_perm _).symm (dateNodup_dropDupKeepLast _)

lemma mergeData_ne_nil {A B : List Row} (hAne : A ≠ []) (hBne : B ≠ []) :
    mergeData A B ≠ [] := by
  unfold mergeData
  rw [if_neg hAne, if_neg hBne]
  intro h
  apply dropDupKeepLast_ne_nil (l := A ++ B) (by simp [hAne])
  have hlen := (sortByDate_perm (dropDupKeepLast (A ++ B))).length_eq
  rw [h] at hlen
  exact List.length_eq_zero.mp hlen.symm

lemma mergeData_self {A : List Row} (hA : A.Pairwise (fun a b => a.date < b.date)) :
    mergeData A A = A := by
  rcases eq_or_ne A [] with rfl | hne
  · rfl
  · unfold mergeData
    rw [if_neg hne, if_neg hne]
    rw [dropDupKeepLast_append_covered (fun r hr => ⟨r, hr, rfl⟩)]
    rw [dropDupKeepLast_eq_self (dateNodup_of_lt hA)]
    exact sortByDate_eq_self (pairwise_le_of_lt hA)

lemma mergeData_remerge {A B : List Row}
    (hA : A.Pairwise (fun a b => a.date < b.date))
    (hB : B.Pairwise (fun a b => a.date < b.date))
    (hagree : ∀ a ∈ A, ∀ b ∈ B, a.date = b.date → a = b) :
    mergeData (mergeData A B) A = mergeData A B := by
  rcases eq_or_ne A [] with rfl | hAne
  · rw [mergeData_nil_left, mergeData_nil_right]
  · rcases eq_or_ne B [] with rfl | hBne
    · rw [mergeData_nil_right, mergeData_self hA]
    · have hM1lt := mergeData_pairwise_lt hA hB
      have hM1ne := mergeData_ne_nil hAne hBne
      apply eq_of_pairwise_lt_of_mem_iff (mergeData_pairwise_lt hM1lt hA) hM1lt
      intro r
      rw [mem_mergeData (dateNodup_of_lt hM1lt) (dateNodup_of_lt hA) hM1ne hAne]
      have hmemM1 : ∀ x : Row, x ∈ mergeData A B ↔
          x ∈ B ∨ (x ∈ A ∧ ∀ y ∈ B, y.date ≠ x.date) :=
        mem_mergeData (dateNodup_of_lt hA) (dateNodup_of_lt hB) hAne hBne
      rw [hmemM1 r]
      constructor
      · rintro (hrA | ⟨hrM1, hnodA⟩)
        · by_cases hrB : ∃ y ∈ B, y.date = r.date
          · obtain ⟨y, hy, hyd⟩ := hrB
            exact Or.inl ((hagree r hrA y hy hyd.symm) ▸ hy)
          · exact Or.inr ⟨hrA, fun y hy hyd => hrB ⟨y, hy, hyd⟩⟩
        · rcases hrM1 with hrB | ⟨hrA, _⟩
          · exact Or.inl hrB
          · exact absurd rfl (hnodA r hrA)
      · rintro (hrB | ⟨hrA, hnodB⟩)
        · by_cases hrA : ∃ a ∈ A, a.date = r.date
          · obtain ⟨a, ha, had⟩ := hrA
            exact Or.inl ((hagree a ha r hrB had) ▸ ha)
          · exact Or.inr ⟨Or.inl hrB, fun y hy hyd => hrA ⟨y, hy, hyd⟩⟩
        · exact Or.inl hrA

/-- C5 (amended): merging a date-sorted, date-unique series with itself
yields it unchanged; and merging A, then B, then A again equals merging A
then B once, provided A and B agree on rows with common dates (re-merging A
overwrites B's row wherever they disagree on a shared date). -/
theorem merge_idempotent (A B : List Row) :
    (A.Pairwise (fun a b => a.date < b.date) → mergeData A A = A) ∧
    (A.Pairwise (fun a b => a.date < b.date) → B.Pairwise (fun a b => a.date < b.date) →
      (∀ a ∈ A, ∀ b ∈ B, a.date = b.date → a = b) →
      mergeData (mergeData A B) A = mergeData A B) :=
  ⟨fun hA => mergeData_self hA, fun hA hB hag => mergeData_remerge hA hB hag⟩

/-- Test fixture: a row dated 1. -/
def exRowA : Row := ⟨1, 1, 1, 1, 1, 1⟩

/-- Test fixture: a different row sharing date 1. -/
def exRowB : Row := ⟨1, 2, 2, 2, 2, 2⟩

/-- Counterexample for C5: when A and B carry different rows for the same
date, re-merging A after merging B restores A's row, so
`merge (merge A B) A` differs from `merge A B`. -/
theorem merge_remerge_counterexample :
    mergeData [exRowA] [exRowB] = [exRowB] ∧
    mergeData (mergeData [exRowA] [exRowB]) [exRowA] = [exRowA] ∧
    mergeData (mergeData [exRowA] [exRowB]) [exRowA] ≠ mergeData [exRowA] [exRowB] := by
  refine ⟨by decide, by decide, by decide⟩

/-- Witness for amended C5 on concrete disjoint-date series. -/
theorem merge_idempotent_witness :
    mergeData (mergeData [exRowA] [⟨2, 3, 3, 3, 3, 3⟩]) [exRowA] =
      mergeData [exRowA] [⟨2, 3, 3, 3, 3, 3⟩] :=
  (merge_idempotent [exRowA] [⟨2, 3, 3, 3, 3, 3⟩]).2 (by decide) (by decide) (by decide)
